import Mathlib

/-!
Formal model of the nexum cache observability and revalidation subsystem.

The definitions below are a shallow embedding of the TypeScript sources:
  * the cache status classifier `analyzeCacheStatus`,
  * the `TagStore` class (tag/group catalog, expansion, validation),
  * the revalidation dispatcher `revalidateCacheTags`,
  * the configuration merge `mergeDeepConfig` and the single-flight
    behaviour of `loadConfig`.

JavaScript numbers that can be `NaN` are modelled by `JsNum`; nullable
strings (`headers.get(...)`) by `Option String` together with the
JavaScript truthiness test `strVal` (empty string and `null` are falsy).
-/

/-- A JavaScript number produced by `Number.parseInt`: either `NaN` or an
integer (we idealize away floating point range limits, which none of the
verified claims exercise). -/
inductive JsNum
  | nan
  | int (n : Int)
deriving DecidableEq, Repr

/-- Rendering of a `JsNum` inside a template literal. -/
def JsNum.render : JsNum → String
  | .nan => "NaN"
  | .int n => toString n

/-- `n > k` on a possibly-NaN number: any comparison with NaN is false. -/
def JsNum.gtInt : JsNum → Int → Bool
  | .nan, _ => false
  | .int n, k => k < n

/-- `a > b` where both sides are possibly-NaN numbers. -/
def JsNum.gt : JsNum → JsNum → Bool
  | .nan, _ => false
  | _, .nan => false
  | .int a, .int b => b < a

/-- ASCII approximation of the whitespace skipped by `Number.parseInt`. -/
def isWsChar (c : Char) : Bool :=
  c == ' ' || c == '\t' || c == '\n' || c == '\r' || c == '\x0b' || c == '\x0c'

/-- Value of a (hexadecimal or decimal) digit. -/
def hexDigitVal (c : Char) : Nat :=
  if c.isDigit then c.toNat - '0'.toNat
  else if 'a' ≤ c && c ≤ 'f' then c.toNat - 'a'.toNat + 10
  else if 'A' ≤ c && c ≤ 'F' then c.toNat - 'A'.toNat + 10
  else 0

/-- Hexadecimal digit test. -/
def isHexDigitChar (c : Char) : Bool :=
  c.isDigit || ('a' ≤ c && c ≤ 'f') || ('A' ≤ c && c ≤ 'F')

/-- Base-`b` value of a digit string. -/
def digitsToNat (b : Nat) (ds : List Char) : Nat :=
  ds.foldl (fun acc c => acc * b + hexDigitVal c) 0

/-- Apply an optional leading minus sign. -/
def signApply (neg : Bool) (n : Nat) : Int :=
  if neg then -(n : Int) else (n : Int)

/-- Core of `Number.parseInt` after whitespace and sign handling: an
optional `0x`/`0X` prefix selects base 16, otherwise the longest leading
run of decimal digits is parsed; no digits means `NaN`. -/
def parseIntCore (neg : Bool) (l : List Char) : JsNum :=
  match l with
  | '0' :: 'x' :: rest =>
    let ds := rest.takeWhile isHexDigitChar
    if ds = [] then .nan else .int (signApply neg (digitsToNat 16 ds))
  | '0' :: 'X' :: rest =>
    let ds := rest.takeWhile isHexDigitChar
    if ds = [] then .nan else .int (signApply neg (digitsToNat 16 ds))
  | _ =>
    let ds := l.takeWhile Char.isDigit
    if ds = [] then .nan else .int (signApply neg (digitsToNat 10 ds))

/-- Model of `Number.parseInt(s)` (radix argument absent). -/
def parseIntJS (s : String) : JsNum :=
  match s.data.dropWhile isWsChar with
  | '-' :: rest => parseIntCore true rest
  | '+' :: rest => parseIntCore false rest
  | l => parseIntCore false l

/-- `String.prototype.toUpperCase` restricted to ASCII (`Char.toUpper`
uppercases exactly the ASCII letters, matching the header values the
classifier compares against). -/
def toUpperJS (s : String) : String := String.mk (s.data.map Char.toUpper)

/-- JavaScript truthiness of a nullable string: `null` and `""` are falsy;
the result carries the string when it is truthy. -/
def strVal : Option String → Option String
  | some s => if s = "" then none else some s
  | none => none

/-- Drop the pattern from the front of a character list, if it is there. -/
def dropPref : List Char → List Char → Option (List Char)
  | [], l => some l
  | _, [] => none
  | p :: ps, c :: cs => if c = p then dropPref ps cs else none

/-- First match of the regular expression `max-age=(\d+)`: scan for the
first position where the literal `max-age=` is followed by at least one
digit, and capture the maximal digit run after it. -/
def maxAgeScan : List Char → Option (List Char)
  | [] => none
  | c :: rest =>
    match dropPref "max-age=".data (c :: rest) with
    | some (d :: tail) =>
      if d.isDigit then some ((d :: tail).takeWhile Char.isDigit) else maxAgeScan rest
    | _ => maxAgeScan rest

/-- `String.prototype.includes`: substring occurrence test. -/
def containsSub : List Char → List Char → Bool
  | pat, [] => (dropPref pat []).isSome
  | pat, c :: rest => (dropPref pat (c :: rest)).isSome || containsSub pat rest

/-- The `revalidate` request option: a number or boolean `false`. -/
inductive Revalidate
  | num (n : ℚ)
  | fls
deriving DecidableEq, Repr

/-- Truthiness of `revalidate` inside the condition `duration < 20 && revalidate`:
only a nonzero number is truthy. -/
def revalidateTruthy : Option Revalidate → Bool
  | some (.num n) => n ≠ 0
  | some .fls => false
  | none => false

/-- The four response headers read by `analyzeCacheStatus` (the function
touches no other header). `none` models a header absent from the response. -/
structure ResponseHeaders where
  cacheControl : Option String
  age : Option String
  xNextjsCache : Option String
  xVercelCache : Option String
deriving DecidableEq, Repr

/-- The cache-relevant request options received by the classifier. -/
structure RequestInitCache where
  tags : Option (List String)
  revalidate : Option Revalidate
  cache : Option String
deriving DecidableEq, Repr

/-- The timing window `{ start, end }` in milliseconds. -/
structure Timing where
  start : Int
  stop : Int
deriving DecidableEq, Repr

/-- The `metadata` field of a classification. `age` is `none` when the
header is falsy, and otherwise holds the (possibly NaN) parsed number. -/
structure CacheMetadata where
  age : Option JsNum
  tags : List String
  revalidate : Option Revalidate
  duration : Int
  strategy : Option String
deriving DecidableEq, Repr

/-- The classifier output. The source annotates `status` with a union
type but assigns `header.toUpperCase() as any` to it, so the model uses
`String`. -/
structure CacheAnalysis where
  status : String
  confidence : ℚ
  indicators : List String
  metadata : CacheMetadata
deriving DecidableEq, Repr

/-- The mutable triple `(status, confidence, indicators)` threaded through
the rule chain of `analyzeCacheStatus`. -/
structure ClassifierState where
  status : String
  confidence : ℚ
  indicators : List String
deriving DecidableEq, Repr

/-- Initial classifier state: `status = "MISS"`, `confidence = 0.5`. -/
def initClassifierState : ClassifierState :=
  { status := "MISS", confidence := 1/2, indicators := [] }

/-- Provider header rule: a truthy `x-nextjs-cache` wins over a truthy
`x-vercel-cache`; either assigns the uppercased raw value as status. -/
def stepProviderHeaders (s : ClassifierState) (xNextjsCache xVercelCache : Option String) :
    ClassifierState :=
  match strVal xNextjsCache with
  | some v =>
    { status := toUpperJS v, confidence := 95/100,
      indicators := s.indicators ++ ["x-nextjs-cache: " ++ v] }
  | none =>
    match strVal xVercelCache with
    | some v =>
      { status := toUpperJS v, confidence := 9/10,
        indicators := s.indicators ++ ["x-vercel-cache: " ++ v] }
    | none => s

/-- Timing rule: `< 5ms` means HIT at confidence `max(c, 0.8)`; `< 20ms`
with a truthy revalidate means HIT at confidence `max(c, 0.7)`. -/
def stepTiming (s : ClassifierState) (duration : Int) (revalidate : Option Revalidate) :
    ClassifierState :=
  if duration < 5 then
    { status := "HIT", confidence := max s.confidence (8/10),
      indicators := s.indicators ++ ["very fast response (" ++ toString duration ++ "ms)"] }
  else if duration < 20 && revalidateTruthy revalidate then
    { status := "HIT", confidence := max s.confidence (7/10),
      indicators := s.indicators ++ ["fast cached response (" ++ toString duration ++ "ms)"] }
  else s

/-- Age rule: a truthy `age` header parsing to a positive number means HIT
at confidence `max(c, 0.8)`. -/
def stepAge (s : ClassifierState) (age : Option String) : ClassifierState :=
  match strVal age with
  | some a =>
    let ageSeconds := parseIntJS a
    if ageSeconds.gtInt 0 then
      { status := "HIT", confidence := max s.confidence (8/10),
        indicators := s.indicators ++ ["age header: " ++ ageSeconds.render ++ "s"] }
    else s
  | none => s

/-- Cache-control rule: purely informational indicator when both a
`max-age` match and `stale-while-revalidate` are present. -/
def stepCacheControl (s : ClassifierState) (cacheControl : Option String) : ClassifierState :=
  match strVal cacheControl with
  | some cc =>
    if (maxAgeScan cc.data).isSome && containsSub "stale-while-revalidate".data cc.data then
      { s with indicators := s.indicators ++ ["cache-control: " ++ cc] }
    else s
  | none => s

/-- Stale rule: with current status HIT, truthy `age` and `cache-control`,
and a `max-age` match, `age > max-age` turns the status into STALE with
the confidence untouched. -/
def stepStale (s : ClassifierState) (age cacheControl : Option String) : ClassifierState :=
  if s.status = "HIT" then
    match strVal age, strVal cacheControl with
    | some a, some cc =>
      let ageSeconds := parseIntJS a
      match maxAgeScan cc.data with
      | some ds =>
        let maxAge := parseIntJS (String.mk ds)
        if ageSeconds.gt maxAge then
          { s with
            status := "STALE"
            indicators := s.indicators ++
              ["stale: age(" ++ ageSeconds.render ++ ") > max-age(" ++ maxAge.render ++ ")"] }
        else s
      | none => s
    | _, _ => s
  else s

/-- Final no-store override: `cache === "no-store"` forces MISS at 0.95. -/
def stepNoStore (s : ClassifierState) (cache : Option String) : ClassifierState :=
  if cache = some "no-store" then
    { status := "MISS", confidence := 95/100, indicators := s.indicators ++ ["cache: no-store"] }
  else s

/-- Placeholder when no rule recorded an indicator. -/
def stepNoIndicators (s : ClassifierState) : ClassifierState :=
  if s.indicators = [] then { s with indicators := ["no indicators"] } else s

/-- Classifier state after the provider-header, timing, age and
cache-control rules and before the stale rule. -/
def preStaleState (response : ResponseHeaders) (requestInit : RequestInitCache)
    (timing : Timing) : ClassifierState :=
  let duration := timing.stop - timing.start
  stepCacheControl
    (stepAge
      (stepTiming
        (stepProviderHeaders initClassifierState response.xNextjsCache response.xVercelCache)
        duration requestInit.revalidate)
      response.age)
    response.cacheControl

/-- Shallow embedding of `analyzeCacheStatus` from the source: the rule
chain above executed in source order, followed by the metadata assembly. -/
def analyzeCacheStatus (response : ResponseHeaders) (requestInit : RequestInitCache)
    (timing : Timing) : CacheAnalysis :=
  let duration := timing.stop - timing.start
  let s := stepNoIndicators
    (stepNoStore
      (stepStale (preStaleState response requestInit timing) response.age response.cacheControl)
      requestInit.cache)
  { status := s.status
    confidence := s.confidence
    indicators := s.indicators
    metadata :=
      { age := (strVal response.age).map parseIntJS
        tags := requestInit.tags.getD []
        revalidate := requestInit.revalidate
        duration := duration
        strategy := requestInit.cache } }

/-! ### Projection and step lemmas for the classifier -/

theorem analyzeCacheStatus_status (r : ResponseHeaders) (ri : RequestInitCache) (t : Timing) :
    (analyzeCacheStatus r ri t).status =
      (stepNoIndicators (stepNoStore (stepStale (preStaleState r ri t) r.age r.cacheControl)
        ri.cache)).status := rfl

theorem analyzeCacheStatus_confidence (r : ResponseHeaders) (ri : RequestInitCache) (t : Timing) :
    (analyzeCacheStatus r ri t).confidence =
      (stepNoIndicators (stepNoStore (stepStale (preStaleState r ri t) r.age r.cacheControl)
        ri.cache)).confidence := rfl

theorem analyzeCacheStatus_indicators (r : ResponseHeaders) (ri : RequestInitCache) (t : Timing) :
    (analyzeCacheStatus r ri t).indicators =
      (stepNoIndicators (stepNoStore (stepStale (preStaleState r ri t) r.age r.cacheControl)
        ri.cache)).indicators := rfl

theorem analyzeCacheStatus_metadata_age (r : ResponseHeaders) (ri : RequestInitCache)
    (t : Timing) :
    (analyzeCacheStatus r ri t).metadata.age = (strVal r.age).map parseIntJS := rfl

theorem stepNoIndicators_status (s : ClassifierState) :
    (stepNoIndicators s).status = s.status := by
  unfold stepNoIndicators; split <;> rfl

theorem stepNoIndicators_confidence (s : ClassifierState) :
    (stepNoIndicators s).confidence = s.confidence := by
  unfold stepNoIndicators; split <;> rfl

theorem stepNoStore_skip (s : ClassifierState) {cache : Option String}
    (h : cache ≠ some "no-store") : stepNoStore s cache = s := by
  unfold stepNoStore; rw [if_neg h]

theorem stepNoStore_hit (s : ClassifierState) :
    stepNoStore s (some "no-store") =
      { status := "MISS", confidence := 95/100,
        indicators := s.indicators ++ ["cache: no-store"] } := by
  unfold stepNoStore; rw [if_pos rfl]

/-! ### Facts about digit strings and `parseIntJS` -/

theorem digit_ne {c : Char} (d : Char) (h : c.isDigit = true) (hd : d.isDigit = false) :
    c ≠ d := by
  rintro rfl; rw [h] at hd; cases hd

theorem digit_not_ws {c : Char} (h : c.isDigit = true) : isWsChar c = false := by
  cases hws : isWsChar c
  · rfl
  · exfalso
    unfold isWsChar at hws
    simp only [Bool.or_eq_true, beq_iff_eq] at hws
    rcases hws with ((((rfl | rfl) | rfl) | rfl) | rfl) | rfl <;> exact absurd h (by decide)

theorem maxAgeScan_digits : ∀ {l ds : List Char}, maxAgeScan l = some ds →
    ds ≠ [] ∧ ∀ c ∈ ds, c.isDigit = true := by
  intro l
  induction l with
  | nil => intro ds h; exact absurd h (by simp [maxAgeScan])
  | cons c rest ih =>
    intro ds h
    unfold maxAgeScan at h
    split at h
    case h_1 d tail heq =>
      split at h
      case isTrue hdig =>
        rw [List.takeWhile_cons, if_pos hdig] at h
        injection h with h
        subst h
        refine ⟨by simp, ?_⟩
        intro x hx
        rcases List.mem_cons.mp hx with rfl | hx
        · exact hdig
        · exact List.mem_takeWhile_imp hx
      case isFalse => exact ih h
    case h_2 => exact ih h

theorem parseIntJS_digits {ds : List Char} (hne : ds ≠ [])
    (hd : ∀ c ∈ ds, c.isDigit = true) :
    parseIntJS (String.mk ds) = .int (digitsToNat 10 ds) := by
  obtain ⟨d, t, rfl⟩ : ∃ d t, ds = d :: t := by
    cases ds with
    | nil => exact absurd rfl hne
    | cons d t => exact ⟨d, t, rfl⟩
  have hd0 : d.isDigit = true := hd d (by simp)
  show parseIntJS (String.mk (d :: t)) = _
  unfold parseIntJS
  have hdata : (String.mk (d :: t)).data = d :: t := rfl
  rw [hdata, List.dropWhile_cons, digit_not_ws hd0]
  simp only [Bool.false_eq_true, if_false]
  split
  case h_1 rest heq => exact absurd (List.head_eq_of_cons_eq heq) (digit_ne '-' hd0 (by decide))
  case h_2 rest heq => exact absurd (List.head_eq_of_cons_eq heq) (digit_ne '+' hd0 (by decide))
  case h_3 =>
    unfold parseIntCore
    split
    case h_1 rest heq =>
      have hx : 'x'.isDigit = true := by
        have := hd 'x' (by rw [List.tail_eq_of_cons_eq heq]; simp)
        exact this
      exact absurd hx (by decide)
    case h_2 rest heq =>
      have hx : 'X'.isDigit = true := by
        have := hd 'X' (by rw [List.tail_eq_of_cons_eq heq]; simp)
        exact this
      exact absurd hx (by decide)
    case h_3 =>
      rw [List.takeWhile_eq_self_iff.mpr hd]
      simp only [signApply, if_false, reduceCtorEq, ite_false, Bool.false_eq_true]

/-! ### Readings used to state the staleness rule -/

/-- The age value the HIT/STALE rules can act on: present iff the `age`
header is truthy and parses to an integer (NaN counts as absent). -/
def ageValue (age : Option String) : Option Int :=
  match strVal age with
  | some a =>
    match parseIntJS a with
    | .int n => some n
    | .nan => none
  | none => none

/-- The `max-age` value available to the stale rule: present iff the
`cache-control` header is truthy and matches `max-age=(\d+)`. -/
def maxAgeValue (cacheControl : Option String) : Option Int :=
  match strVal cacheControl with
  | some cc =>
    match maxAgeScan cc.data with
    | some ds => some ((digitsToNat 10 ds : Nat) : Int)
    | none => none
  | none => none

theorem stepStale_spec (s : ClassifierState) (age cacheControl : Option String) :
    (stepStale s age cacheControl).confidence = s.confidence ∧
    (stepStale s age cacheControl).status =
      (match ageValue age, maxAgeValue cacheControl with
       | some a, some m => if s.status = "HIT" ∧ m < a then "STALE" else s.status
       | _, _ => s.status) := by
  constructor
  · unfold stepStale
    by_cases hs : s.status = "HIT"
    · rw [if_pos hs]
      cases hA : strVal age with
      | none => cases hC : strVal cacheControl <;> rfl
      | some a =>
        cases hC : strVal cacheControl with
        | none => rfl
        | some cc =>
          dsimp only
          cases hM : maxAgeScan cc.data with
          | none => rfl
          | some ds =>
            dsimp only
            split
            · rfl
            · rfl
    · rw [if_neg hs]
  · unfold stepStale ageValue maxAgeValue
    by_cases hs : s.status = "HIT"
    · rw [if_pos hs]
      cases hA : strVal age with
      | none => cases hC : strVal cacheControl <;> dsimp only
      | some a =>
        cases hC : strVal cacheControl with
        | none => dsimp only; cases hP : parseIntJS a <;> dsimp only
        | some cc =>
          dsimp only
          cases hM : maxAgeScan cc.data with
          | none => cases hP : parseIntJS a <;> dsimp only
          | some ds =>
            have hds := maxAgeScan_digits hM
            have hparse := parseIntJS_digits hds.1 hds.2
            dsimp only
            cases hP : parseIntJS a with
            | nan => rw [hparse]; simp [JsNum.gt]
            | int n =>
              rw [hparse]; simp only [JsNum.gt, decide_eq_true_eq, hs, eq_self_iff_true, true_and]
              split <;> simp [hs]
    · rw [if_neg hs]
      cases hA : strVal age with
      | none => cases hC : strVal cacheControl <;> dsimp only
      | some a =>
        cases hC : strVal cacheControl with
        | none => dsimp only; cases hP : parseIntJS a <;> dsimp only
        | some cc =>
          dsimp only
          cases hM : maxAgeScan cc.data with
          | none => cases hP : parseIntJS a <;> dsimp only
          | some ds => cases hP : parseIntJS a <;> simp [hs]

/-- Claim C2: whenever the request cache directive is `no-store`, the
classification has status MISS and confidence 0.95, regardless of every
other header, timing or age signal. -/
theorem analyzeCacheStatus_noStore_forces_miss (r : ResponseHeaders) (ri : RequestInitCache)
    (t : Timing) (h : ri.cache = some "no-store") :
    (analyzeCacheStatus r ri t).status = "MISS" ∧
    (analyzeCacheStatus r ri t).confidence = 95/100 := by
  constructor
  · rw [analyzeCacheStatus_status, stepNoIndicators_status, h, stepNoStore_hit]
  · rw [analyzeCacheStatus_confidence, stepNoIndicators_confidence, h, stepNoStore_hit]

/-- Witness for C2 at the spec example: cache directive `no-store` together
with an `age` header of 100 still classifies as MISS at confidence 0.95. -/
theorem analyzeCacheStatus_noStore_forces_miss_witness :
    (analyzeCacheStatus ⟨none, some "100", none, none⟩ ⟨none, none, some "no-store"⟩
      ⟨0, 100⟩).status = "MISS" ∧
    (analyzeCacheStatus ⟨none, some "100", none, none⟩ ⟨none, none, some "no-store"⟩
      ⟨0, 100⟩).confidence = 95/100 :=
  analyzeCacheStatus_noStore_forces_miss _ _ _ rfl

/-- Claim C5: the overall classifier leaves the confidence of the
pre-stale state untouched, and turns the status into STALE exactly when
the pre-stale status is HIT and both an age value and a `max-age`
directive are available with age exceeding max-age (outside the `no-store`
override, which is claim C2's separate final rule). -/
theorem analyzeCacheStatus_staleness_override (r : ResponseHeaders) (ri : RequestInitCache)
    (t : Timing) (h : ri.cache ≠ some "no-store") :
    (analyzeCacheStatus r ri t).confidence = (preStaleState r ri t).confidence ∧
    (analyzeCacheStatus r ri t).status =
      (match ageValue r.age, maxAgeValue r.cacheControl with
       | some a, some m =>
         if (preStaleState r ri t).status = "HIT" ∧ m < a then "STALE"
         else (preStaleState r ri t).status
       | _, _ => (preStaleState r ri t).status) := by
  have hs := stepStale_spec (preStaleState r ri t) r.age r.cacheControl
  constructor
  · rw [analyzeCacheStatus_confidence, stepNoIndicators_confidence, stepNoStore_skip _ h, hs.1]
  · rw [analyzeCacheStatus_status, stepNoIndicators_status, stepNoStore_skip _ h, hs.2]

/-- Witness for C5 at the spec example: age 120 against `max-age=60` with
no other signals yields STALE with the confidence of the pre-stale state. -/
theorem analyzeCacheStatus_staleness_override_witness :
    (analyzeCacheStatus ⟨some "max-age=60", some "120", none, none⟩ ⟨none, none, none⟩
      ⟨0, 100⟩).status = "STALE" ∧
    (analyzeCacheStatus ⟨some "max-age=60", some "120", none, none⟩ ⟨none, none, none⟩
      ⟨0, 100⟩).confidence =
      (preStaleState ⟨some "max-age=60", some "120", none, none⟩ ⟨none, none, none⟩
        ⟨0, 100⟩).confidence := by
  have h := analyzeCacheStatus_staleness_override ⟨some "max-age=60", some "120", none, none⟩
    ⟨none, none, none⟩ ⟨0, 100⟩ (by simp)
  exact ⟨h.2.trans (by decide), h.1⟩

/-! ### The status vocabulary (claim C4) -/

/-- The status vocabulary the specification promises. -/
def statusVocab : List String := ["HIT", "MISS", "STALE", "REVALIDATED"]

/-- Counterexample to C4 as stated: a provider cache header whose value is
not in the vocabulary is uppercased and assigned verbatim, so the returned
status can lie outside {HIT, MISS, STALE, REVALIDATED}. -/
theorem analyzeCacheStatus_status_vocab_counterexample :
    (analyzeCacheStatus ⟨none, none, some "weird", none⟩ ⟨none, none, none⟩
      ⟨0, 100⟩).status = "WEIRD" ∧ "WEIRD" ∉ statusVocab := by
  constructor
  · rfl
  · decide

theorem stepProviderHeaders_vocab {s : ClassifierState} {xN xV : Option String}
    (hs : s.status ∈ statusVocab)
    (hN : ∀ v, strVal xN = some v → toUpperJS v ∈ statusVocab)
    (hV : ∀ v, strVal xV = some v → toUpperJS v ∈ statusVocab) :
    (stepProviderHeaders s xN xV).status ∈ statusVocab := by
  unfold stepProviderHeaders
  cases h1 : strVal xN with
  | some v => exact hN v h1
  | none =>
    cases h2 : strVal xV with
    | some v => exact hV v h2
    | none => exact hs

theorem stepTiming_vocab {s : ClassifierState} (d : Int) (r : Option Revalidate)
    (hs : s.status ∈ statusVocab) : (stepTiming s d r).status ∈ statusVocab := by
  unfold stepTiming
  split
  · exact (by decide : "HIT" ∈ statusVocab)
  · split
    · exact (by decide : "HIT" ∈ statusVocab)
    · exact hs

theorem stepAge_vocab {s : ClassifierState} (age : Option String)
    (hs : s.status ∈ statusVocab) : (stepAge s age).status ∈ statusVocab := by
  unfold stepAge
  cases h : strVal age with
  | some a =>
    dsimp only
    split
    · exact (by decide : "HIT" ∈ statusVocab)
    · exact hs
  | none => exact hs

theorem stepCacheControl_status (s : ClassifierState) (cc : Option String) :
    (stepCacheControl s cc).status = s.status := by
  unfold stepCacheControl
  cases h : strVal cc with
  | some v => dsimp only; split <;> rfl
  | none => rfl

theorem stepCacheControl_confidence (s : ClassifierState) (cc : Option String) :
    (stepCacheControl s cc).confidence = s.confidence := by
  unfold stepCacheControl
  cases h : strVal cc with
  | some v => dsimp only; split <;> rfl
  | none => rfl

theorem stepStale_vocab {s : ClassifierState} (age cc : Option String)
    (hs : s.status ∈ statusVocab) : (stepStale s age cc).status ∈ statusVocab := by
  rw [(stepStale_spec s age cc).2]
  rcases ageValue age with _ | a <;> rcases maxAgeValue cc with _ | m <;> dsimp only
  · exact hs
  · exact hs
  · exact hs
  · split
    · decide
    · exact hs

theorem stepNoStore_vocab {s : ClassifierState} (cache : Option String)
    (hs : s.status ∈ statusVocab) : (stepNoStore s cache).status ∈ statusVocab := by
  unfold stepNoStore
  split
  · exact (by decide : "MISS" ∈ statusVocab)
  · exact hs

theorem stepProviderHeaders_conf {s : ClassifierState} (xN xV : Option String)
    (h0 : 0 ≤ s.confidence) (h1 : s.confidence ≤ 1) :
    0 ≤ (stepProviderHeaders s xN xV).confidence ∧
      (stepProviderHeaders s xN xV).confidence ≤ 1 := by
  unfold stepProviderHeaders
  cases strVal xN with
  | some v => constructor <;> norm_num
  | none =>
    cases strVal xV with
    | some v => constructor <;> norm_num
    | none => exact ⟨h0, h1⟩

theorem stepTiming_conf {s : ClassifierState} (d : Int) (r : Option Revalidate)
    (h0 : 0 ≤ s.confidence) (h1 : s.confidence ≤ 1) :
    0 ≤ (stepTiming s d r).confidence ∧ (stepTiming s d r).confidence ≤ 1 := by
  unfold stepTiming
  split
  · exact ⟨le_trans h0 (le_max_left _ _), max_le h1 (by norm_num)⟩
  · split
    · exact ⟨le_trans h0 (le_max_left _ _), max_le h1 (by norm_num)⟩
    · exact ⟨h0, h1⟩

theorem stepAge_conf {s : ClassifierState} (age : Option String)
    (h0 : 0 ≤ s.confidence) (h1 : s.confidence ≤ 1) :
    0 ≤ (stepAge s age).confidence ∧ (stepAge s age).confidence ≤ 1 := by
  unfold stepAge
  cases strVal age with
  | some a =>
    dsimp only
    split
    · exact ⟨le_trans h0 (le_max_left _ _), max_le h1 (by norm_num)⟩
    · exact ⟨h0, h1⟩
  | none => exact ⟨h0, h1⟩

theorem stepNoStore_conf {s : ClassifierState} (cache : Option String)
    (h0 : 0 ≤ s.confidence) (h1 : s.confidence ≤ 1) :
    0 ≤ (stepNoStore s cache).confidence ∧ (stepNoStore s cache).confidence ≤ 1 := by
  unfold stepNoStore
  split
  · constructor <;> norm_num
  · exact ⟨h0, h1⟩

/-- Amended C4: the confidence lies in [0,1] unconditionally, for every
input; the status lies in {HIT, MISS, STALE, REVALIDATED} provided every
truthy provider cache header uppercases into that vocabulary (the source
trusts those header values verbatim). -/
theorem analyzeCacheStatus_status_vocab_amended (r : ResponseHeaders) (ri : RequestInitCache)
    (t : Timing) :
    0 ≤ (analyzeCacheStatus r ri t).confidence ∧
    (analyzeCacheStatus r ri t).confidence ≤ 1 ∧
    ((∀ v, strVal r.xNextjsCache = some v → toUpperJS v ∈ statusVocab) →
     (∀ v, strVal r.xVercelCache = some v → toUpperJS v ∈ statusVocab) →
     (analyzeCacheStatus r ri t).status ∈ statusVocab) := by
  have hc0 : 0 ≤ initClassifierState.confidence ∧ initClassifierState.confidence ≤ 1 := by
    constructor <;> norm_num [initClassifierState]
  have hcPre : 0 ≤ (preStaleState r ri t).confidence ∧
      (preStaleState r ri t).confidence ≤ 1 := by
    show 0 ≤ (stepCacheControl (stepAge (stepTiming
      (stepProviderHeaders initClassifierState r.xNextjsCache r.xVercelCache)
      (t.stop - t.start) ri.revalidate) r.age) r.cacheControl).confidence ∧
      (stepCacheControl (stepAge (stepTiming
      (stepProviderHeaders initClassifierState r.xNextjsCache r.xVercelCache)
      (t.stop - t.start) ri.revalidate) r.age) r.cacheControl).confidence ≤ 1
    rw [stepCacheControl_confidence]
    have c1 := stepProviderHeaders_conf r.xNextjsCache r.xVercelCache hc0.1 hc0.2
    have c2 := stepTiming_conf (t.stop - t.start) ri.revalidate c1.1 c1.2
    exact stepAge_conf r.age c2.1 c2.2
  refine ⟨?_, ?_, ?_⟩
  · rw [analyzeCacheStatus_confidence, stepNoIndicators_confidence]
    have hst := (stepStale_spec (preStaleState r ri t) r.age r.cacheControl).1
    have := stepNoStore_conf ri.cache (hst ▸ hcPre.1) (hst ▸ hcPre.2)
    exact this.1
  · rw [analyzeCacheStatus_confidence, stepNoIndicators_confidence]
    have hst := (stepStale_spec (preStaleState r ri t) r.age r.cacheControl).1
    have := stepNoStore_conf ri.cache (hst ▸ hcPre.1) (hst ▸ hcPre.2)
    exact this.2
  · intro hN hV
    have h0 : initClassifierState.status ∈ statusVocab := by decide
    have hvPre : (preStaleState r ri t).status ∈ statusVocab := by
      show (stepCacheControl (stepAge (stepTiming
        (stepProviderHeaders initClassifierState r.xNextjsCache r.xVercelCache)
        (t.stop - t.start) ri.revalidate) r.age) r.cacheControl).status ∈ statusVocab
      rw [stepCacheControl_status]
      exact stepAge_vocab _ (stepTiming_vocab _ _ (stepProviderHeaders_vocab h0 hN hV))
    rw [analyzeCacheStatus_status, stepNoIndicators_status]
    exact stepNoStore_vocab _ (stepStale_vocab _ _ hvPre)

/-- Witness for the amended C4: the unconditional confidence bounds hold
at the out-of-vocabulary "weird" input of the counterexample, and the
provider-header hypotheses are discharged at a concrete input whose
header uppercases into the vocabulary. -/
theorem analyzeCacheStatus_status_vocab_amended_witness :
    (0 ≤ (analyzeCacheStatus ⟨none, none, some "weird", none⟩ ⟨none, none, none⟩
      ⟨0, 100⟩).confidence ∧
     (analyzeCacheStatus ⟨none, none, some "weird", none⟩ ⟨none, none, none⟩
      ⟨0, 100⟩).confidence ≤ 1) ∧
    (0 ≤ (analyzeCacheStatus ⟨none, none, some "hit", none⟩ ⟨none, none, none⟩
      ⟨0, 50⟩).confidence ∧
     (analyzeCacheStatus ⟨none, none, some "hit", none⟩ ⟨none, none, none⟩
      ⟨0, 50⟩).confidence ≤ 1 ∧
     (analyzeCacheStatus ⟨none, none, some "hit", none⟩ ⟨none, none, none⟩
      ⟨0, 50⟩).status ∈ statusVocab) := by
  have hw := analyzeCacheStatus_status_vocab_amended ⟨none, none, some "weird", none⟩
    ⟨none, none, none⟩ ⟨0, 100⟩
  have hh := analyzeCacheStatus_status_vocab_amended ⟨none, none, some "hit", none⟩
    ⟨none, none, none⟩ ⟨0, 50⟩
  refine ⟨⟨hw.1, hw.2.1⟩, hh.1, hh.2.1, hh.2.2 ?_ ?_⟩
  · intro v hv
    simp only [strVal] at hv
    rw [if_neg (by decide)] at hv
    cases hv
    decide
  · intro v hv
    simp [strVal] at hv

/-! ### Unparsable age values (claim C6) -/

/-- Counterexample to C6 as stated: with a present but unparsable `age`
header the observed-age metadata field is not absent — it holds the NaN
produced by `Number.parseInt`. -/
theorem analyzeCacheStatus_unparsable_age_counterexample :
    (analyzeCacheStatus ⟨none, some "abc", none, none⟩ ⟨none, none, none⟩
      ⟨0, 100⟩).metadata.age = some JsNum.nan ∧
    (analyzeCacheStatus ⟨none, some "abc", none, none⟩ ⟨none, none, none⟩
      ⟨0, 100⟩).metadata.age ≠ none := by
  constructor
  · rfl
  · intro h
    cases (show some JsNum.nan = (none : Option JsNum) from h)

theorem stepAge_unparsable {s : ClassifierState} {age : Option String} {a : String}
    (h1 : strVal age = some a) (h2 : parseIntJS a = .nan) : stepAge s age = s := by
  unfold stepAge
  rw [h1]
  dsimp only
  rw [h2]
  rfl

theorem stepAge_age_none (s : ClassifierState) : stepAge s none = s := rfl

theorem stepStale_unparsable {age : Option String} {a : String} (s : ClassifierState)
    (cc : Option String) (h1 : strVal age = some a) (h2 : parseIntJS a = .nan) :
    stepStale s age cc = s := by
  unfold stepStale
  split
  · rw [h1]
    cases hC : strVal cc with
    | none => rfl
    | some v =>
      dsimp only
      cases hM : maxAgeScan v.data with
      | none => rfl
      | some ds =>
        dsimp only
        rw [h2]
        simp [JsNum.gt]
  · rfl

theorem stepStale_age_none (s : ClassifierState) (cc : Option String) :
    stepStale s none cc = s := by
  unfold stepStale
  split
  · cases hC : strVal cc <;> rfl
  · rfl

/-- Amended C6: an unparsable `age` header is treated as absent by every
classification rule (status, confidence and indicators agree with the
same input with the header removed), but the observed-age metadata field
then holds NaN instead of being absent. -/
theorem analyzeCacheStatus_unparsable_age_amended (r : ResponseHeaders)
    (ri : RequestInitCache) (t : Timing) (a : String)
    (h1 : strVal r.age = some a) (h2 : parseIntJS a = .nan) :
    (analyzeCacheStatus r ri t).status =
      (analyzeCacheStatus ⟨r.cacheControl, none, r.xNextjsCache, r.xVercelCache⟩ ri t).status ∧
    (analyzeCacheStatus r ri t).confidence =
      (analyzeCacheStatus ⟨r.cacheControl, none, r.xNextjsCache, r.xVercelCache⟩ ri t).confidence ∧
    (analyzeCacheStatus r ri t).indicators =
      (analyzeCacheStatus ⟨r.cacheControl, none, r.xNextjsCache, r.xVercelCache⟩ ri t).indicators ∧
    (analyzeCacheStatus r ri t).metadata.age = some JsNum.nan := by
  have hpre : preStaleState r ri t =
      preStaleState ⟨r.cacheControl, none, r.xNextjsCache, r.xVercelCache⟩ ri t := by
    show stepCacheControl (stepAge (stepTiming
        (stepProviderHeaders initClassifierState r.xNextjsCache r.xVercelCache)
        (t.stop - t.start) ri.revalidate) r.age) r.cacheControl =
      stepCacheControl (stepAge (stepTiming
        (stepProviderHeaders initClassifierState r.xNextjsCache r.xVercelCache)
        (t.stop - t.start) ri.revalidate) none) r.cacheControl
    rw [stepAge_unparsable h1 h2, stepAge_age_none]
  have hstale : stepStale (preStaleState r ri t) r.age r.cacheControl =
      stepStale (preStaleState ⟨r.cacheControl, none, r.xNextjsCache, r.xVercelCache⟩ ri t)
        none r.cacheControl := by
    rw [stepStale_unparsable _ _ h1 h2, stepStale_age_none, hpre]
  refine ⟨?_, ?_, ?_, ?_⟩
  · rw [analyzeCacheStatus_status, analyzeCacheStatus_status, hstale]
  · rw [analyzeCacheStatus_confidence, analyzeCacheStatus_confidence, hstale]
  · rw [analyzeCacheStatus_indicators, analyzeCacheStatus_indicators, hstale]
  · rw [analyzeCacheStatus_metadata_age, h1]
    simp [h2]

/-- Witness for the amended C6 with the unparsable header value `"abc"`. -/
theorem analyzeCacheStatus_unparsable_age_amended_witness :
    (analyzeCacheStatus ⟨none, some "abc", none, none⟩ ⟨none, none, none⟩ ⟨0, 100⟩).status =
      (analyzeCacheStatus ⟨none, none, none, none⟩ ⟨none, none, none⟩ ⟨0, 100⟩).status ∧
    (analyzeCacheStatus ⟨none, some "abc", none, none⟩ ⟨none, none, none⟩ ⟨0, 100⟩).confidence =
      (analyzeCacheStatus ⟨none, none, none, none⟩ ⟨none, none, none⟩ ⟨0, 100⟩).confidence ∧
    (analyzeCacheStatus ⟨none, some "abc", none, none⟩ ⟨none, none, none⟩ ⟨0, 100⟩).indicators =
      (analyzeCacheStatus ⟨none, none, none, none⟩ ⟨none, none, none⟩ ⟨0, 100⟩).indicators ∧
    (analyzeCacheStatus ⟨none, some "abc", none, none⟩ ⟨none, none, none⟩
      ⟨0, 100⟩).metadata.age = some JsNum.nan :=
  analyzeCacheStatus_unparsable_age_amended ⟨none, some "abc", none, none⟩
    ⟨none, none, none⟩ ⟨0, 100⟩ "abc" rfl (by decide)

/-! ### The TagStore (tag/group catalog) -/

/-- A tag catalog entry: a name plus optional description. -/
structure TagConfig where
  name : String
  description : Option String
deriving DecidableEq, Repr

/-- `Set.prototype.add` on an insertion-ordered, duplicate-free list. -/
def addUnique (l : List String) (x : String) : List String :=
  if x ∈ l then l else l ++ [x]

/-- `String.prototype.indexOf` for one character: first index, `-1` if absent. -/
def jsIndexOf (c : Char) : List Char → Int
  | [] => -1
  | d :: rest =>
    if d = c then 0
    else
      let r := jsIndexOf c rest
      if r = -1 then -1 else r + 1

/-- The constructor's `groupsMap.get(group).add(tag.name)` with
get-or-create, on an insertion-ordered association list. -/
def groupsInsert (m : List (String × List String)) (g t : String) :
    List (String × List String) :=
  match m with
  | [] => [(g, [t])]
  | e :: rest =>
    if e.1 = g then (e.1, addUnique e.2 t) :: rest else e :: groupsInsert rest g t

/-- `Map.prototype.set` on an association list (overwrite in place). -/
def mapSet (m : List (String × String)) (k v : String) : List (String × String) :=
  match m with
  | [] => [(k, v)]
  | e :: rest => if e.1 = k then (k, v) :: rest else e :: mapSet rest k v

/-- The `TagStore` indexes built by the constructor (the `tagsMap` backing
`getTag`/`getAllTags`, which no verified claim touches, is omitted). -/
structure TagStore where
  tags : List TagConfig
  tagsSet : List String
  groupsMap : List (String × List String)
  tagToGroupMap : List (String × String)
deriving Repr

/-- `new Set(config.tags.map(tag => tag.name))`. -/
def mkTagsSet (config : List TagConfig) : List String :=
  config.foldl (fun s tag => addUnique s tag.name) []

/-- The constructor loop: for every tag whose name has a colon at a
positive index, register the tag under its group (prefix before the first
colon) and record the tag-to-group edge. -/
def mkTagMaps (config : List TagConfig) :
    List (String × List String) × List (String × String) :=
  config.foldl
    (fun maps tag =>
      let colonIndex := jsIndexOf ':' tag.name.data
      if 0 < colonIndex then
        let group := String.mk (tag.name.data.take colonIndex.toNat)
        (groupsInsert maps.1 group tag.name, mapSet maps.2 tag.name group)
      else maps)
    ([], [])

/-- The `TagStore` constructor over a fixed catalog. -/
def mkTagStore (config : List TagConfig) : TagStore :=
  { tags := config
    tagsSet := mkTagsSet config
    groupsMap := (mkTagMaps config).1
    tagToGroupMap := (mkTagMaps config).2 }

/-- `hasTag`: membership in the tags set. -/
def TagStore.hasTag (st : TagStore) (tagName : String) : Bool :=
  st.tagsSet.contains tagName

/-- `hasGroup`: membership among the groups-map keys. -/
def TagStore.hasGroup (st : TagStore) (groupName : String) : Bool :=
  (st.groupsMap.find? (fun e => e.1 == groupName)).isSome

/-- `getTagsByGroup`: the group's tag set as a list, empty if unknown. -/
def TagStore.getTagsByGroup (st : TagStore) (groupName : String) : List String :=
  match st.groupsMap.find? (fun e => e.1 == groupName) with
  | some e => e.2
  | none => []

/-- The body of the `expandGroupsToTags` loop. -/
def TagStore.expandStep (st : TagStore) (expandedTags : List String) (item : String) :
    List String :=
  if st.hasGroup item then (st.getTagsByGroup item).foldl addUnique expandedTags
  else if st.hasTag item then addUnique expandedTags item
  else expandedTags

/-- `expandGroupsToTags`: groups expand to their tags, known tags stand
for themselves, anything else is dropped; the result is a set. -/
def TagStore.expandGroupsToTags (st : TagStore) (items : List String) : List String :=
  items.foldl st.expandStep []

/-- `validateTagsAndGroups`: order-preserving partition into known and
unknown names plus the expansion of the valid part. -/
def TagStore.validateTagsAndGroups (st : TagStore) (items : List String) :
    List String × List String × List String :=
  let valid := items.filter (fun item => st.hasTag item || st.hasGroup item)
  let invalid := items.filter (fun item => !(st.hasTag item || st.hasGroup item))
  (valid, invalid, st.expandGroupsToTags valid)

/-! ### Set lemmas for `addUnique` folds -/

theorem mem_addUnique {l : List String} {x t : String} :
    t ∈ addUnique l x ↔ t ∈ l ∨ t = x := by
  unfold addUnique
  split
  · constructor
    · exact Or.inl
    · rintro (h | rfl) <;> assumption
  · simp

theorem nodup_addUnique {l : List String} (x : String) (h : l.Nodup) :
    (addUnique l x).Nodup := by
  unfold addUnique
  split
  · exact h
  · simp_all [List.nodup_append]

theorem mem_foldl_addUnique (gl : List String) : ∀ (acc : List String) (t : String),
    t ∈ gl.foldl addUnique acc ↔ t ∈ acc ∨ t ∈ gl := by
  induction gl with
  | nil => simp
  | cons x xs ih =>
    intro acc t
    rw [List.foldl_cons, ih, mem_addUnique]
    simp only [List.mem_cons]
    tauto

theorem nodup_foldl_addUnique (gl : List String) : ∀ acc : List String,
    acc.Nodup → (gl.foldl addUnique acc).Nodup := by
  induction gl with
  | nil => intro acc h; exact h
  | cons x xs ih =>
    intro acc h
    rw [List.foldl_cons]
    exact ih _ (nodup_addUnique x h)

theorem foldl_addUnique_of_nodup : ∀ (gl acc : List String), gl.Nodup →
    (∀ t ∈ gl, t ∉ acc) → gl.foldl addUnique acc = acc ++ gl := by
  intro gl
  induction gl with
  | nil => intro acc _ _; simp
  | cons x xs ih =>
    intro acc hnd hdis
    rw [List.foldl_cons]
    have hx : addUnique acc x = acc ++ [x] := by
      unfold addUnique
      rw [if_neg (hdis x (by simp))]
    rw [hx, ih (acc ++ [x]) (List.nodup_cons.mp hnd).2]
    · simp
    · intro t ht
      simp only [List.mem_append, List.mem_singleton]
      rintro (hacc | rfl)
      · exact hdis t (by simp [ht]) hacc
      · exact (List.nodup_cons.mp hnd).1 ht

/-! ### Membership characterization of the expansion (claim C7) -/

theorem mem_expand_foldl (st : TagStore) : ∀ (items acc : List String) (t : String),
    t ∈ items.foldl st.expandStep acc ↔
      t ∈ acc ∨ ∃ i ∈ items, (st.hasGroup i = true ∧ t ∈ st.getTagsByGroup i) ∨
        (st.hasGroup i = false ∧ st.hasTag i = true ∧ t = i) := by
  intro items
  induction items with
  | nil => simp
  | cons x xs ih =>
    intro acc t
    rw [List.foldl_cons, ih]
    unfold TagStore.expandStep
    split
    case isTrue hg =>
      rw [mem_foldl_addUnique]
      constructor
      · rintro ((h | h) | ⟨i, hi, hP⟩)
        · exact Or.inl h
        · exact Or.inr ⟨x, List.mem_cons_self x xs, Or.inl ⟨hg, h⟩⟩
        · exact Or.inr ⟨i, List.mem_cons_of_mem x hi, hP⟩
      · rintro (h | ⟨i, hi, hP⟩)
        · exact Or.inl (Or.inl h)
        · rcases List.mem_cons.mp hi with rfl | hi
          · rcases hP with ⟨_, h⟩ | ⟨h1, _, _⟩
            · exact Or.inl (Or.inr h)
            · rw [hg] at h1; cases h1
          · exact Or.inr ⟨i, hi, hP⟩
    case isFalse hg =>
      have hg2 : st.hasGroup x = false := by
        cases h : st.hasGroup x
        · rfl
        · exact absurd h hg
      split
      case isTrue ht =>
        rw [mem_addUnique]
        constructor
        · rintro ((h | hx) | ⟨i, hi, hP⟩)
          · exact Or.inl h
          · exact Or.inr ⟨x, List.mem_cons_self x xs, Or.inr ⟨hg2, ht, hx⟩⟩
          · exact Or.inr ⟨i, List.mem_cons_of_mem x hi, hP⟩
        · rintro (h | ⟨i, hi, hP⟩)
          · exact Or.inl (Or.inl h)
          · rcases List.mem_cons.mp hi with rfl | hi
            · rcases hP with ⟨h1, _⟩ | ⟨_, _, rfl⟩
              · rw [hg2] at h1; cases h1
              · exact Or.inl (Or.inr rfl)
            · exact Or.inr ⟨i, hi, hP⟩
      case isFalse ht =>
        have ht2 : st.hasTag x = false := by
          cases h : st.hasTag x
          · rfl
          · exact absurd h ht
        constructor
        · rintro (h | ⟨i, hi, hP⟩)
          · exact Or.inl h
          · exact Or.inr ⟨i, List.mem_cons_of_mem x hi, hP⟩
        · rintro (h | ⟨i, hi, hP⟩)
          · exact Or.inl h
          · rcases List.mem_cons.mp hi with rfl | hi
            · rcases hP with ⟨h1, _⟩ | ⟨_, h1, _⟩
              · rw [hg2] at h1; cases h1
              · rw [ht2] at h1; cases h1
            · exact Or.inr ⟨i, hi, hP⟩

theorem nodup_expand_foldl (st : TagStore) : ∀ (items acc : List String),
    acc.Nodup → (items.foldl st.expandStep acc).Nodup := by
  intro items
  induction items with
  | nil => intro acc h; exact h
  | cons x xs ih =>
    intro acc h
    rw [List.foldl_cons]
    apply ih
    unfold TagStore.expandStep
    split
    · exact nodup_foldl_addUnique _ _ h
    · split
      · exact nodup_addUnique _ h
      · exact h

/-- Counterexample to C7 as stated: in a catalog where `n` is both a known
tag and a known group (tags `n` and `n:leaf`), the expansion of `["n"]`
does not contain the known tag `n` itself, contrary to "each known tag
name contributes itself". -/
theorem validateTagsAndGroups_collision_counterexample :
    (mkTagStore [⟨"n", none⟩, ⟨"n:leaf", none⟩]).hasTag "n" = true ∧
    "n" ∉ (mkTagStore [⟨"n", none⟩, ⟨"n:leaf", none⟩]).expandGroupsToTags ["n"] ∧
    (mkTagStore [⟨"n", none⟩, ⟨"n:leaf", none⟩]).validateTagsAndGroups ["n"] =
      (["n"], [], ["n:leaf"]) := by
  refine ⟨rfl, ?_, rfl⟩
  decide

/-- Amended C7: `validateTagsAndGroups` partitions the items in input
order into known (tag or group) and unknown names, and its `expandedTags`
is the expansion of the valid sublist; the expansion is duplicate-free and
contains exactly the tags of the known groups among the items together
with those items that are known tags **and not also known groups** (when
a name is both, the group expansion wins — claim C10). -/
theorem validateTagsAndGroups_spec_amended (st : TagStore) (items : List String) :
    (st.validateTagsAndGroups items).1 =
      items.filter (fun i => st.hasTag i || st.hasGroup i) ∧
    (st.validateTagsAndGroups items).2.1 =
      items.filter (fun i => !(st.hasTag i || st.hasGroup i)) ∧
    (st.validateTagsAndGroups items).2.2 =
      st.expandGroupsToTags ((st.validateTagsAndGroups items).1) ∧
    (∀ t, t ∈ st.expandGroupsToTags items ↔
      ∃ i ∈ items, (st.hasGroup i = true ∧ t ∈ st.getTagsByGroup i) ∨
        (st.hasGroup i = false ∧ st.hasTag i = true ∧ t = i)) ∧
    (st.expandGroupsToTags items).Nodup := by
  refine ⟨rfl, rfl, rfl, ?_, ?_⟩
  · intro t
    rw [TagStore.expandGroupsToTags, mem_expand_foldl]
    simp
  · exact nodup_expand_foldl st items [] List.nodup_nil

/-! ### Constructor invariants of the groups map (claim C10) -/

/-- Invariant of the constructor-built groups map: every group's tag set
is duplicate-free, and every member is strictly longer than the group
name (it is the group name, a colon, and a nonempty remainder). -/
def GroupsMapWF (m : List (String × List String)) : Prop :=
  ∀ e ∈ m, e.2.Nodup ∧ ∀ t ∈ e.2, e.1.length < t.length

theorem groupsInsert_wf {m : List (String × List String)} {g t : String}
    (hm : GroupsMapWF m) (hlen : g.length < t.length) :
    GroupsMapWF (groupsInsert m g t) := by
  induction m with
  | nil =>
    intro e he
    rcases List.mem_singleton.mp he with rfl
    exact ⟨List.nodup_singleton t, by intro u hu; rcases List.mem_singleton.mp hu with rfl; exact hlen⟩
  | cons hd rest ih =>
    have hm1 := hm hd (List.mem_cons_self hd rest)
    have hm2 : GroupsMapWF rest := fun e he => hm e (List.mem_cons_of_mem hd he)
    unfold groupsInsert
    split
    case isTrue heq =>
      intro e he
      rcases List.mem_cons.mp he with rfl | he
      · refine ⟨nodup_addUnique t hm1.1, ?_⟩
        intro u hu
        rcases mem_addUnique.mp hu with hu | rfl
        · exact hm1.2 u hu
        · rw [heq]; exact hlen
      · exact hm2 e he
    case isFalse heq =>
      intro e he
      rcases List.mem_cons.mp he with rfl | he
      · exact hm1
      · exact ih hm2 e he

theorem jsIndexOf_spec (c : Char) : ∀ l : List Char,
    jsIndexOf c l = -1 ∨ (0 ≤ jsIndexOf c l ∧ (jsIndexOf c l).toNat < l.length) := by
  intro l
  induction l with
  | nil => exact Or.inl rfl
  | cons d rest ih =>
    unfold jsIndexOf
    by_cases hd : d = c
    · rw [if_pos hd]
      right
      exact ⟨le_refl 0, by simp⟩
    · rw [if_neg hd]
      dsimp only
      rcases ih with h | ⟨h0, hlt⟩
      · rw [h]
        exact Or.inl (by simp)
      · have hne : jsIndexOf c rest ≠ -1 := by
          intro e
          rw [e] at h0
          norm_num at h0
        rw [if_neg hne]
        right
        constructor
        · omega
        · simp only [List.length_cons]
          omega

theorem mkTagMaps_wf (config : List TagConfig) : GroupsMapWF (mkTagMaps config).1 := by
  suffices h : ∀ (cfg : List TagConfig)
      (maps : List (String × List String) × List (String × String)),
      GroupsMapWF maps.1 →
      GroupsMapWF (cfg.foldl
        (fun maps tag =>
          let colonIndex := jsIndexOf ':' tag.name.data
          if 0 < colonIndex then
            let group := String.mk (tag.name.data.take colonIndex.toNat)
            (groupsInsert maps.1 group tag.name, mapSet maps.2 tag.name group)
          else maps)
        maps).1 by
    exact h config ([], []) (fun e he => absurd he (List.not_mem_nil e))
  intro cfg
  induction cfg with
  | nil => intro maps h; exact h
  | cons tag rest ih =>
    intro maps h
    rw [List.foldl_cons]
    apply ih
    dsimp only
    by_cases hci : 0 < jsIndexOf ':' tag.name.data
    · rw [if_pos hci]
      apply groupsInsert_wf h
      rcases jsIndexOf_spec ':' tag.name.data with he | ⟨h0, hlt⟩
      · rw [he] at hci; norm_num at hci
      · show (String.mk (tag.name.data.take (jsIndexOf ':' tag.name.data).toNat)).length <
          tag.name.length
        show (tag.name.data.take (jsIndexOf ':' tag.name.data).toNat).length <
          tag.name.data.length
        rw [List.length_take]
        omega
    · rw [if_neg hci]
      exact h

theorem getTagsByGroup_wf_nodup {st : TagStore} (hwf : GroupsMapWF st.groupsMap)
    (g : String) : (st.getTagsByGroup g).Nodup := by
  unfold TagStore.getTagsByGroup
  cases hf : st.groupsMap.find? (fun e => e.1 == g) with
  | none => exact List.nodup_nil
  | some e => exact (hwf e (List.mem_of_find?_eq_some hf)).1

theorem getTagsByGroup_wf_length {st : TagStore} (hwf : GroupsMapWF st.groupsMap)
    (g : String) : ∀ t ∈ st.getTagsByGroup g, g.length < t.length := by
  unfold TagStore.getTagsByGroup
  cases hf : st.groupsMap.find? (fun e => e.1 == g) with
  | none => intro t ht; exact absurd ht (List.not_mem_nil t)
  | some e =>
    have he := List.mem_of_find?_eq_some hf
    have hp := List.find?_some hf
    have heq : e.1 = g := by simpa using hp
    intro t ht
    rw [← heq]
    exact (hwf e he).2 t ht

/-- Claim C10: when a name `n` is both a known tag and a known group, the
expansion of `[n]` is exactly the group's tag list and does not contain
the standalone tag `n` itself — the group test runs before the tag test. -/
theorem expandGroupsToTags_group_precedence (config : List TagConfig) (n : String)
    (hT : (mkTagStore config).hasTag n = true)
    (hG : (mkTagStore config).hasGroup n = true) :
    (mkTagStore config).expandGroupsToTags [n] = (mkTagStore config).getTagsByGroup n ∧
    n ∉ (mkTagStore config).expandGroupsToTags [n] := by
  have hwf : GroupsMapWF (mkTagStore config).groupsMap := mkTagMaps_wf config
  have h1 : (mkTagStore config).expandGroupsToTags [n] =
      (mkTagStore config).getTagsByGroup n := by
    show (mkTagStore config).expandStep [] n = _
    unfold TagStore.expandStep
    rw [if_pos hG]
    rw [foldl_addUnique_of_nodup _ _ (getTagsByGroup_wf_nodup hwf n)
      (fun t _ => List.not_mem_nil t)]
    simp
  refine ⟨h1, ?_⟩
  rw [h1]
  intro hmem
  exact absurd (getTagsByGroup_wf_length hwf n n hmem) (lt_irrefl _)

/-- Witness for C10 on the two-tag catalog `n`, `n:leaf`. -/
theorem expandGroupsToTags_group_precedence_witness :
    (mkTagStore [⟨"n", none⟩, ⟨"n:leaf", none⟩]).hasTag "n" = true ∧
    (mkTagStore [⟨"n", none⟩, ⟨"n:leaf", none⟩]).hasGroup "n" = true ∧
    (mkTagStore [⟨"n", none⟩, ⟨"n:leaf", none⟩]).expandGroupsToTags ["n"] =
      (mkTagStore [⟨"n", none⟩, ⟨"n:leaf", none⟩]).getTagsByGroup "n" ∧
    "n" ∉ (mkTagStore [⟨"n", none⟩, ⟨"n:leaf", none⟩]).expandGroupsToTags ["n"] := by
  have h := expandGroupsToTags_group_precedence [⟨"n", none⟩, ⟨"n:leaf", none⟩] "n"
    (by decide) (by decide)
  exact ⟨by decide, by decide, h.1, h.2⟩

/-! ### The revalidation dispatcher `revalidateCacheTags` -/

/-- The `tags` argument: a list of tag names or the `"never"` sentinel. -/
inductive RevalidateTags
  | never
  | tags (l : List String)
deriving DecidableEq, Repr

/-- The two invalidation strategies (`revalidateFunction` values). -/
inductive RevalidateFunction
  | revalidateTag
  | updateTag
deriving DecidableEq, Repr

/-- The configuration fields the dispatcher reads (`NEXUM_CONFIG` also
carries auth/url/debug fields the dispatcher ignores, except the
empty-tags warning flag, which only gates a log line). -/
structure NexumConfigCache where
  defaultRevalidateFunction : Option RevalidateFunction
  emptyMutationTagsWarning : Option Bool
deriving DecidableEq, Repr

/-- The dispatcher's options argument. -/
structure RevalidateCacheTagsOptions where
  url : String
  revalidateFunction : Option RevalidateFunction
  profile : Option String
deriving DecidableEq, Repr

/-- One observable invocation of an invalidation primitive. -/
inductive CacheCall
  | revalidateTagCall (tag : String) (profile : String)
  | updateTagCall (tag : String)
deriving DecidableEq, Repr

/-- The per-tag loop: invoke the primitive on each tag in order; an
exception aborts the loop and propagates (the source has no guard around
the call). On success the trace records the calls in order. -/
def runTagLoop {ε : Type} (primitive : String → Except ε Unit) (mk : String → CacheCall) :
    List String → Except ε (List CacheCall)
  | [] => .ok []
  | t :: ts =>
    match primitive t with
    | .error e => .error e
    | .ok _ =>
      match runTagLoop primitive mk ts with
      | .error e => .error e
      | .ok calls => .ok (mk t :: calls)

/-- Shallow embedding of `revalidateCacheTags`. The capability probe
(`isNextCacheAvailable`) is passed as an `Except` value: the source wraps
the dynamic import in try/catch, so a probe failure is caught and treated
as unavailable. The two primitives are passed as `Except`-valued
functions; the result is the trace of primitive invocations, or the first
uncaught exception. -/
def revalidateCacheTags {ε : Type} (probe : Except ε Bool)
    (revalidateTagFn : String → String → Except ε Unit)
    (updateTagFn : String → Except ε Unit)
    (config : NexumConfigCache)
    (tags : Option RevalidateTags)
    (options : RevalidateCacheTagsOptions) : Except ε (List CacheCall) :=
  if tags = some .never then .ok []
  else
    let nextCacheAvailable :=
      match probe with
      | .ok b => b
      | .error _ => false
    if !nextCacheAvailable then .ok []
    else
      match tags with
      | none => .ok []
      | some .never => .ok []
      | some (.tags l) =>
        if l = [] then .ok []
        else
          let revalidationStrategy :=
            options.revalidateFunction.getD
              (config.defaultRevalidateFunction.getD .revalidateTag)
          match revalidationStrategy with
          | .revalidateTag =>
            let profile := options.profile.getD "max"
            runTagLoop (fun tag => revalidateTagFn tag profile)
              (fun tag => CacheCall.revalidateTagCall tag profile) l
          | .updateTag => runTagLoop updateTagFn CacheCall.updateTagCall l

theorem runTagLoop_total {ε : Type} (primitive : String → Except ε Unit)
    (mk : String → CacheCall) (h : ∀ t, primitive t = .ok ()) :
    ∀ l : List String, runTagLoop primitive mk l = .ok (l.map mk) := by
  intro l
  induction l with
  | nil => rfl
  | cons t ts ih =>
    unfold runTagLoop
    rw [h t, ih]
    rfl

/-- Claim C1: with capability AVAILABLE and a non-empty tag list, the
strategy is the explicit option, else the configured default, else
`revalidateTag`; under `revalidateTag` the primary primitive runs once
per tag in input order with the profile (explicit, else `"max"`), and
under `updateTag` the secondary primitive runs once per tag without a
profile. -/
theorem revalidateCacheTags_strategy_and_order {ε : Type}
    (revalidateTagFn : String → String → Except ε Unit)
    (updateTagFn : String → Except ε Unit)
    (config : NexumConfigCache) (l : List String)
    (options : RevalidateCacheTagsOptions)
    (hrt : ∀ t p, revalidateTagFn t p = .ok ())
    (hut : ∀ t, updateTagFn t = .ok ())
    (hl : l ≠ []) :
    revalidateCacheTags (.ok true) revalidateTagFn updateTagFn config
      (some (.tags l)) options =
    .ok (match options.revalidateFunction.getD
          (config.defaultRevalidateFunction.getD .revalidateTag) with
         | .revalidateTag =>
           l.map (fun tag => CacheCall.revalidateTagCall tag (options.profile.getD "max"))
         | .updateTag => l.map CacheCall.updateTagCall) := by
  unfold revalidateCacheTags
  rw [if_neg (by simp), if_neg (by simp)]
  dsimp only
  rw [if_neg hl]
  cases hstrat : options.revalidateFunction.getD
      (config.defaultRevalidateFunction.getD .revalidateTag) with
  | revalidateTag => exact runTagLoop_total _ _ (fun t => hrt t _) l
  | updateTag => exact runTagLoop_total _ _ hut l

/-- Witness for C1: capability available, two tags, default strategy and
profile; the primary primitive is called on `a` then `b` with `"max"`. -/
theorem revalidateCacheTags_strategy_and_order_witness :
    revalidateCacheTags (.ok true)
      (fun _ _ => (.ok () : Except Unit Unit)) (fun _ => (.ok () : Except Unit Unit))
      ⟨none, none⟩ (some (.tags ["a", "b"])) ⟨"/u", none, none⟩ =
    .ok [CacheCall.revalidateTagCall "a" "max", CacheCall.revalidateTagCall "b" "max"] := by
  have h := revalidateCacheTags_strategy_and_order
    (fun _ _ => (.ok () : Except Unit Unit)) (fun _ => (.ok () : Except Unit Unit))
    ⟨none, none⟩ ["a", "b"] ⟨"/u", none, none⟩
    (fun _ _ => rfl) (fun _ => rfl) (by simp)
  exact h.trans (by rfl)

/-- Counterexample to C3 as stated: the per-tag primitive invocation is
not guarded, so a failing primary primitive makes the dispatcher itself
fail — the caller observes the exception. -/
theorem revalidateCacheTags_throw_counterexample :
    revalidateCacheTags (.ok true)
      (fun _ _ => (.error () : Except Unit Unit)) (fun _ => (.ok () : Except Unit Unit))
      ⟨none, none⟩ (some (.tags ["a"])) ⟨"/u", none, none⟩ = .error () := rfl

/-- Amended C3: capability-probe failures are absorbed (a failed probe
yields a no-op success), and the dispatcher succeeds on every input as
long as every per-tag primitive invocation succeeds; but an exception
thrown by an individual per-tag primitive invocation propagates to the
caller (see the counterexample). -/
theorem revalidateCacheTags_noThrow_amended {ε : Type} (probe : Except ε Bool)
    (revalidateTagFn : String → String → Except ε Unit)
    (updateTagFn : String → Except ε Unit)
    (config : NexumConfigCache) (tags : Option RevalidateTags)
    (options : RevalidateCacheTagsOptions)
    (hrt : ∀ t p, revalidateTagFn t p = .ok ())
    (hut : ∀ t, updateTagFn t = .ok ()) :
    (∃ calls, revalidateCacheTags probe revalidateTagFn updateTagFn config tags options =
      .ok calls) ∧
    (∀ e : ε, revalidateCacheTags (.error e) revalidateTagFn updateTagFn config tags options =
      .ok []) := by
  constructor
  · cases tags with
    | none =>
      cases probe with
      | error e => exact ⟨[], rfl⟩
      | ok b => cases b <;> exact ⟨[], rfl⟩
    | some tv =>
      cases tv with
      | never => exact ⟨[], rfl⟩
      | tags l =>
        cases probe with
        | error e => exact ⟨[], rfl⟩
        | ok b =>
          cases b with
          | false => exact ⟨[], rfl⟩
          | true =>
            cases l with
            | nil => exact ⟨[], rfl⟩
            | cons t ts =>
              unfold revalidateCacheTags
              rw [if_neg (by simp), if_neg (by simp)]
              dsimp only
              rw [if_neg (by simp)]
              cases hstrat : options.revalidateFunction.getD
                  (config.defaultRevalidateFunction.getD .revalidateTag) with
              | revalidateTag => exact ⟨_, runTagLoop_total _ _ (fun u => hrt u _) _⟩
              | updateTag => exact ⟨_, runTagLoop_total _ _ hut _⟩
  · intro e
    unfold revalidateCacheTags
    split
    · rfl
    · rfl

/-- Witness for the amended C3: a successful probe and total primitives on
a concrete call, plus a failing probe absorbed into a no-op. -/
theorem revalidateCacheTags_noThrow_amended_witness :
    (∃ calls, revalidateCacheTags (.ok true)
      (fun _ _ => (.ok () : Except Unit Unit)) (fun _ => (.ok () : Except Unit Unit))
      ⟨none, none⟩ (some (.tags ["a"])) ⟨"/u", none, none⟩ = .ok calls) ∧
    (∀ e : Unit, revalidateCacheTags (.error e)
      (fun _ _ => (.ok () : Except Unit Unit)) (fun _ => (.ok () : Except Unit Unit))
      ⟨none, none⟩ (some (.tags ["a"])) ⟨"/u", none, none⟩ = .ok []) :=
  revalidateCacheTags_noThrow_amended (.ok true)
    (fun _ _ => (.ok () : Except Unit Unit)) (fun _ => (.ok () : Except Unit Unit))
    ⟨none, none⟩ (some (.tags ["a"])) ⟨"/u", none, none⟩
    (fun _ _ => rfl) (fun _ => rfl)

/-! ### The configuration merge `mergeDeepConfig` -/

/-- JavaScript values as far as the merge can distinguish them:
`undefined`, `null`, booleans, numbers, strings, arrays and plain
objects (objects are insertion-ordered key/value lists; real configs have
unique keys, which the merge theorems assume). -/
inductive JsValue
  | undef
  | null
  | bool (b : Bool)
  | num (q : ℚ)
  | str (s : String)
  | arr (l : List JsValue)
  | obj (fields : List (String × JsValue))

/-- Property read: first binding of the key, `undefined` when absent. -/
def jsLookup : List (String × JsValue) → String → JsValue
  | [], _ => .undef
  | e :: rest, k => if e.1 = k then e.2 else jsLookup rest k

/-- Key presence (`key in obj`). -/
def hasKey : List (String × JsValue) → String → Bool
  | [], _ => false
  | e :: rest, k => e.1 = k || hasKey rest k

/-- Property write: overwrite in place, else append. -/
def setKey : List (String × JsValue) → String → JsValue → List (String × JsValue)
  | [], k, v => [(k, v)]
  | e :: rest, k, v => if e.1 = k then (k, v) :: rest else e :: setKey rest k v

/-- The object spread `{...base, ...upd}`. -/
def objSpread (base upd : List (String × JsValue)) : List (String × JsValue) :=
  upd.foldl (fun acc e => setKey acc e.1 e.2) base

/-- `userValue === undefined`. -/
def JsValue.isUndef : JsValue → Bool
  | .undef => true
  | _ => false

/-- `typeof v === "object" && v !== null && !Array.isArray(v)`. -/
def JsValue.isPlainObject : JsValue → Bool
  | .obj _ => true
  | _ => false

/-- The fields of a plain object (empty for anything else). -/
def JsValue.objFields : JsValue → List (String × JsValue)
  | .obj fields => fields
  | _ => []

/-- One iteration of the `for key in userConfig` loop of
`mergeDeepConfig`: skip `undefined`, spread-merge when the default and
user values are both plain objects, otherwise overwrite wholesale. The
default value is looked up in the original `defaultConfig`. -/
def mergeStep (defaultConfig result : List (String × JsValue)) (e : String × JsValue) :
    List (String × JsValue) :=
  let userValue := e.2
  let defaultValue := jsLookup defaultConfig e.1
  if userValue.isUndef then result
  else if userValue.isPlainObject && defaultValue.isPlainObject then
    setKey result e.1 (.obj (objSpread defaultValue.objFields userValue.objFields))
  else setKey result e.1 userValue

/-- Shallow embedding of `mergeDeepConfig`: start from a copy of the
defaults and fold the loop over the user config's entries. -/
def mergeDeepConfig (defaultConfig userConfig : List (String × JsValue)) :
    List (String × JsValue) :=
  userConfig.foldl (mergeStep defaultConfig) defaultConfig

theorem jsLookup_setKey_self (l : List (String × JsValue)) (k : String) (v : JsValue) :
    jsLookup (setKey l k v) k = v := by
  induction l with
  | nil => simp [setKey, jsLookup]
  | cons e rest ih =>
    unfold setKey
    split
    · simp [jsLookup]
    · unfold jsLookup
      rw [if_neg (by assumption)]
      exact ih

theorem jsLookup_setKey_ne (l : List (String × JsValue)) {k k2 : String} (v : JsValue)
    (h : k ≠ k2) : jsLookup (setKey l k v) k2 = jsLookup l k2 := by
  induction l with
  | nil => simp [setKey, jsLookup, h]
  | cons e rest ih =>
    unfold setKey
    split
    case isTrue he =>
      unfold jsLookup
      rw [if_neg h, if_neg (by rw [he]; exact h)]
    case isFalse he =>
      unfold jsLookup
      split
      · rfl
      · exact ih

theorem hasKey_iff_mem (l : List (String × JsValue)) (k : String) :
    hasKey l k = true ↔ k ∈ l.map Prod.fst := by
  induction l with
  | nil => simp [hasKey]
  | cons e rest ih =>
    unfold hasKey
    simp only [List.map_cons, List.mem_cons, Bool.or_eq_true, decide_eq_true_eq]
    rw [ih]
    constructor
    · rintro (h | h)
      · exact Or.inl h.symm
      · exact Or.inr h
    · rintro (h | h)
      · exact Or.inl h.symm
      · exact Or.inr h

theorem mergeStep_lookup_ne (d result : List (String × JsValue)) (e : String × JsValue)
    {k : String} (h : e.1 ≠ k) :
    jsLookup (mergeStep d result e) k = jsLookup result k := by
  unfold mergeStep
  dsimp only
  split
  · rfl
  · split
    · exact jsLookup_setKey_ne result _ h
    · exact jsLookup_setKey_ne result _ h

theorem mergeFold_lookup_notMem (d : List (String × JsValue)) :
    ∀ (u result : List (String × JsValue)) (k : String), hasKey u k = false →
      jsLookup (u.foldl (mergeStep d) result) k = jsLookup result k := by
  intro u
  induction u with
  | nil => intro result k _; rfl
  | cons e rest ih =>
    intro result k hk
    unfold hasKey at hk
    simp only [Bool.or_eq_false_iff, decide_eq_false_iff_not] at hk
    rw [List.foldl_cons, ih _ k hk.2, mergeStep_lookup_ne d result e hk.1]

theorem objSpread_lookup_notMem :
    ∀ (upd base : List (String × JsValue)) (k : String), hasKey upd k = false →
      jsLookup (objSpread base upd) k = jsLookup base k := by
  intro upd
  induction upd with
  | nil => intro base k _; rfl
  | cons e rest ih =>
    intro base k hk
    unfold hasKey at hk
    simp only [Bool.or_eq_false_iff, decide_eq_false_iff_not] at hk
    show jsLookup (objSpread (setKey base e.1 e.2) rest) k = _
    rw [ih _ k hk.2, jsLookup_setKey_ne base _ hk.1]

theorem objSpread_lookup :
    ∀ (upd base : List (String × JsValue)) (k : String), (upd.map Prod.fst).Nodup →
      jsLookup (objSpread base upd) k =
        if hasKey upd k then jsLookup upd k else jsLookup base k := by
  intro upd
  induction upd with
  | nil => intro base k _; simp [objSpread, hasKey, jsLookup]
  | cons e rest ih =>
    intro base k hnd
    obtain ⟨hnd1, hnd2⟩ : e.1 ∉ rest.map Prod.fst ∧ (rest.map Prod.fst).Nodup :=
      List.nodup_cons.mp (by simpa using hnd)
    show jsLookup (objSpread (setKey base e.1 e.2) rest) k = _
    by_cases hek : e.1 = k
    · subst hek
      have hkr : hasKey rest e.1 = false := by
        cases h : hasKey rest e.1
        · rfl
        · exact absurd ((hasKey_iff_mem rest e.1).mp h) hnd1
      rw [objSpread_lookup_notMem rest _ e.1 hkr, jsLookup_setKey_self]
      have h1 : hasKey (e :: rest) e.1 = true := by
        unfold hasKey; simp
      have h2 : jsLookup (e :: rest) e.1 = e.2 := by
        unfold jsLookup; rw [if_pos rfl]
      rw [h1, h2]
      rfl
    · rw [ih _ k hnd2]
      have h1 : hasKey (e :: rest) k = hasKey rest k := by
        show (decide (e.1 = k) || hasKey rest k) = hasKey rest k
        simp [hek]
      have h2 : jsLookup (e :: rest) k = jsLookup rest k := by
        show (if e.1 = k then e.2 else jsLookup rest k) = jsLookup rest k
        rw [if_neg hek]
      rw [h1, h2, jsLookup_setKey_ne base _ hek]

theorem mergeFold_lookup (d : List (String × JsValue)) :
    ∀ (u result : List (String × JsValue)) (k : String), (u.map Prod.fst).Nodup →
      jsLookup (u.foldl (mergeStep d) result) k =
        (match u.find? (fun e => e.1 == k) with
         | none => jsLookup result k
         | some e =>
           if e.2.isUndef then jsLookup result k
           else if e.2.isPlainObject && (jsLookup d k).isPlainObject then
             .obj (objSpread (jsLookup d k).objFields e.2.objFields)
           else e.2) := by
  intro u
  induction u with
  | nil => intro result k _; rfl
  | cons e rest ih =>
    intro result k hnd
    obtain ⟨hnd1, hnd2⟩ : e.1 ∉ rest.map Prod.fst ∧ (rest.map Prod.fst).Nodup :=
      List.nodup_cons.mp (by simpa using hnd)
    rw [List.foldl_cons]
    by_cases hek : e.1 = k
    · subst hek
      have hkr : hasKey rest e.1 = false := by
        cases h : hasKey rest e.1
        · rfl
        · exact absurd ((hasKey_iff_mem rest e.1).mp h) hnd1
      have hnr : rest.find? (fun x => x.1 == e.1) = none := by
        cases hf : rest.find? (fun x => x.1 == e.1) with
        | none => rfl
        | some x =>
          have hx := List.find?_some hf
          have hmem := List.mem_of_find?_eq_some hf
          have : x.1 = e.1 := by simpa using hx
          exact absurd ((hasKey_iff_mem rest e.1).mpr
            (this ▸ List.mem_map_of_mem Prod.fst hmem)) (by simp [hkr])
      rw [mergeFold_lookup_notMem d rest _ e.1 hkr]
      have hfind : (e :: rest).find? (fun x => x.1 == e.1) = some e :=
        List.find?_cons_of_pos _ (by simp)
      rw [hfind]
      unfold mergeStep
      dsimp only
      by_cases hu : e.2.isUndef = true
      · rw [if_pos hu, if_pos hu]
      · rw [if_neg hu, if_neg hu]
        by_cases ho : (e.2.isPlainObject && (jsLookup d e.1).isPlainObject) = true
        · rw [if_pos ho, if_pos ho, jsLookup_setKey_self]
        · rw [if_neg ho, if_neg ho, jsLookup_setKey_self]
    · rw [ih _ k hnd2]
      have hfind : (e :: rest).find? (fun x => x.1 == k) = rest.find? (fun x => x.1 == k) :=
        List.find?_cons_of_neg _ (by simp [hek])
      rw [hfind]
      cases hf : rest.find? (fun x => x.1 == k) with
      | none =>
        dsimp only
        exact mergeStep_lookup_ne d result e hek
      | some x =>
        dsimp only
        split
        · exact mergeStep_lookup_ne d result e hek
        · rfl

/-- Claim C8: per-key semantics of the merge. For each key of the
discovered (user) config: `undefined` never overrides the default; when
both sides hold plain non-array objects, they merge exactly one level
deep via the spread (discovered keys win, default-only keys survive —
second conjunct); otherwise the discovered value replaces the default
wholesale. Keys absent from the discovered config keep their default.
Key lists are assumed duplicate-free, as JavaScript object keys are. -/
theorem mergeDeepConfig_key_semantics (d u : List (String × JsValue))
    (hd : (d.map Prod.fst).Nodup) (hu : (u.map Prod.fst).Nodup) (k : String) :
    jsLookup (mergeDeepConfig d u) k =
      (match u.find? (fun e => e.1 == k) with
       | none => jsLookup d k
       | some e =>
         if e.2.isUndef then jsLookup d k
         else if e.2.isPlainObject && (jsLookup d k).isPlainObject then
           .obj (objSpread (jsLookup d k).objFields e.2.objFields)
         else e.2) ∧
    (∀ (base upd : List (String × JsValue)) (k2 : String), (upd.map Prod.fst).Nodup →
      jsLookup (objSpread base upd) k2 =
        if hasKey upd k2 then jsLookup upd k2 else jsLookup base k2) :=
  ⟨mergeFold_lookup d u d k hu, fun base upd k2 h => objSpread_lookup upd base k2 h⟩

/-- Witness for C8: defaults with a nested block, a discovered config
that overrides one nested key and carries an `undefined` entry; the
merged nested object keeps the default-only key and takes the discovered
value for the shared key. -/
theorem mergeDeepConfig_key_semantics_witness :
    jsLookup (mergeDeepConfig
      [("a", JsValue.num 1), ("b", JsValue.obj [("x", JsValue.num 1), ("y", JsValue.num 2)])]
      [("b", JsValue.obj [("y", JsValue.num 3)]), ("c", JsValue.undef)]) "b" =
      JsValue.obj [("x", JsValue.num 1), ("y", JsValue.num 3)] := by
  have h := mergeDeepConfig_key_semantics
    [("a", JsValue.num 1), ("b", JsValue.obj [("x", JsValue.num 1), ("y", JsValue.num 2)])]
    [("b", JsValue.obj [("y", JsValue.num 3)]), ("c", JsValue.undef)]
    (by decide) (by decide) "b"
  exact h.1.trans (by rfl)

/-! ### Single-flight behaviour of `loadConfig` (claim C9)

The async execution of `loadConfig` in `config.ts` is modelled as a
transition system. Each caller of the loader (`getConfigAsync`, or the
module-level eager call) runs the synchronous prefix of `loadConfig`
atomically — JavaScript run-to-completion between awaits — and either
returns the cache, joins the published in-flight promise, or starts a
new discovery and publishes its promise. A discovery completes in one
atomic step (the closure writes `configCache`, resolves its promise with
the same value, and its `finally` clears `configPromise`); waiters resume
in later microtasks. `reloadConfig`, which deliberately clears the guard,
is outside this claim and not modelled. -/

/-- Observable state of one caller of the loader. -/
inductive LoaderTask (Config : Type)
  | ready
  | waiting (p : Nat)
  | resolvedFrom (p : Nat) (c : Config)
  | cached (c : Config)

/-- The module-level mutable state of `config.ts` (`configCache`,
`configPromise`) plus bookkeeping: the ids of in-flight discoveries, the
settled promises with their values, a fresh-id counter, and the callers. -/
structure LoaderState (Config : Type) where
  configCache : Option Config
  configPromise : Option Nat
  inFlight : List Nat
  resolutions : List (Nat × Config)
  nextId : Nat
  tasks : Nat → LoaderTask Config

/-- Cold start: nothing cached, nothing in flight, every caller ready. -/
def initLoaderState (Config : Type) : LoaderState Config :=
  { configCache := none, configPromise := none, inFlight := [], resolutions := [],
    nextId := 0, tasks := fun _ => .ready }

/-- Atomic steps of the system; the discovered value in `complete` is
chosen by the environment (the merged config, or the defaults when
discovery fails — either way the closure caches and resolves the same
value). -/
inductive LoaderStep {Config : Type} : LoaderState Config → LoaderState Config → Prop
  | callCached (s : LoaderState Config) (i : Nat) (c : Config) :
      s.tasks i = .ready → s.configCache = some c →
      LoaderStep s { s with tasks := fun j => if j = i then .cached c else s.tasks j }
  | callJoin (s : LoaderState Config) (i p : Nat) :
      s.tasks i = .ready → s.configCache = none → s.configPromise = some p →
      LoaderStep s { s with tasks := fun j => if j = i then .waiting p else s.tasks j }
  | callStart (s : LoaderState Config) (i : Nat) :
      s.tasks i = .ready → s.configCache = none → s.configPromise = none →
      LoaderStep s
        { s with
          configPromise := some s.nextId
          inFlight := s.nextId :: s.inFlight
          nextId := s.nextId + 1
          tasks := fun j => if j = i then .waiting s.nextId else s.tasks j }
  | complete (s : LoaderState Config) (p : Nat) (c : Config) :
      p ∈ s.inFlight →
      LoaderStep s
        { s with
          configCache := some c
          configPromise := none
          inFlight := s.inFlight.erase p
          resolutions := (p, c) :: s.resolutions }
  | resume (s : LoaderState Config) (i p : Nat) (c : Config) :
      s.tasks i = .waiting p → (p, c) ∈ s.resolutions →
      LoaderStep s { s with tasks := fun j => if j = i then .resolvedFrom p c else s.tasks j }

/-- States reachable from a cold start. -/
inductive LoaderReachable {Config : Type} : LoaderState Config → Prop
  | init : LoaderReachable (initLoaderState Config)
  | step {s t : LoaderState Config} :
      LoaderReachable s → LoaderStep s t → LoaderReachable t

/-- Inductive invariant of the loader. -/
def LoaderInv {Config : Type} (s : LoaderState Config) : Prop :=
  s.inFlight.length ≤ 1 ∧
  (∀ p, p ∈ s.inFlight → s.configPromise = some p ∧ s.configCache = none ∧
    p ∉ s.resolutions.map Prod.fst ∧ p < s.nextId) ∧
  (∀ p, s.configPromise = some p → p ∈ s.inFlight) ∧
  (s.resolutions.map Prod.fst).Nodup ∧
  (∀ e ∈ s.resolutions, e.1 < s.nextId) ∧
  (∀ i p c, s.tasks i = .resolvedFrom p c → (p, c) ∈ s.resolutions)

theorem mem_length_le_one {l : List Nat} {p : Nat} (hp : p ∈ l) (hlen : l.length ≤ 1) :
    l = [p] := by
  cases l with
  | nil => exact absurd hp (List.not_mem_nil p)
  | cons x rest =>
    cases rest with
    | nil =>
      rcases List.mem_singleton.mp hp with rfl
      rfl
    | cons y rest2 => simp at hlen

theorem loaderInv_init (Config : Type) : LoaderInv (initLoaderState Config) := by
  refine ⟨by simp [initLoaderState], ?_, ?_, by simp [initLoaderState], ?_, ?_⟩
  · intro p hp; exact absurd hp (List.not_mem_nil p)
  · intro p hp; exact absurd hp (by simp [initLoaderState])
  · intro e he; exact absurd he (List.not_mem_nil e)
  · intro i p c h; exact absurd h (by simp [initLoaderState])

theorem loaderInv_step {Config : Type} {s t : LoaderState Config}
    (inv : LoaderInv s) (hstep : LoaderStep s t) : LoaderInv t := by
  obtain ⟨inv1, inv2, inv3, inv4, inv5, inv6⟩ := inv
  cases hstep with
  | callCached i c hready hcache =>
    refine ⟨inv1, inv2, inv3, inv4, inv5, ?_⟩
    intro j p c2 hj
    dsimp only at hj
    by_cases hji : j = i
    · rw [hji] at hj; simp at hj
    · rw [if_neg hji] at hj
      exact inv6 j p c2 hj
  | callJoin i p hready hcache hprom =>
    refine ⟨inv1, inv2, inv3, inv4, inv5, ?_⟩
    intro j q c2 hj
    dsimp only at hj
    by_cases hji : j = i
    · rw [hji] at hj; simp at hj
    · rw [if_neg hji] at hj
      exact inv6 j q c2 hj
  | callStart i hready hcache hprom =>
    have hempty : s.inFlight = [] := by
      cases hl : s.inFlight with
      | nil => rfl
      | cons x rest =>
        have := (inv2 x (by rw [hl]; exact List.mem_cons_self x rest)).1
        rw [hprom] at this
        cases this
    refine ⟨?_, ?_, ?_, inv4, ?_, ?_⟩
    · simp [hempty]
    · intro p hp
      simp only [hempty] at hp
      rcases List.mem_singleton.mp hp with rfl
      refine ⟨rfl, hcache, ?_, by dsimp only; omega⟩
      intro hmem
      rcases List.mem_map.mp hmem with ⟨e, he, hfst⟩
      have := inv5 e he
      omega
    · intro p hp
      cases hp
      exact List.mem_cons_self s.nextId s.inFlight
    · intro e he
      have := inv5 e he
      dsimp only
      omega
    · intro j p c2 hj
      dsimp only at hj
      by_cases hji : j = i
      · rw [hji] at hj; simp at hj
      · rw [if_neg hji] at hj
        exact inv6 j p c2 hj
  | complete p c hp =>
    have hsingle : s.inFlight = [p] := mem_length_le_one hp inv1
    have herase : s.inFlight.erase p = [] := by
      rw [hsingle]
      simp
    obtain ⟨hprom, hcache, hfresh, hlt⟩ := inv2 p hp
    refine ⟨by simp [herase], ?_, ?_, ?_, ?_, ?_⟩
    · intro q hq
      rw [herase] at hq
      exact absurd hq (List.not_mem_nil q)
    · intro q hq
      cases hq
    · simp only [List.map_cons]
      exact List.nodup_cons.mpr ⟨hfresh, inv4⟩
    · intro e he
      rcases List.mem_cons.mp he with rfl | he
      · exact hlt
      · exact inv5 e he
    · intro j q c2 hj
      exact List.mem_cons_of_mem _ (inv6 j q c2 hj)
  | resume i p c hwait hres =>
    refine ⟨inv1, inv2, inv3, inv4, inv5, ?_⟩
    intro j q c2 hj
    dsimp only at hj
    by_cases hji : j = i
    · rw [hji, if_pos rfl] at hj
      cases hj
      exact hres
    · rw [if_neg hji] at hj
      exact inv6 j q c2 hj

theorem loaderInv_reachable {Config : Type} {s : LoaderState Config}
    (h : LoaderReachable s) : LoaderInv s := by
  induction h with
  | init => exact loaderInv_init Config
  | step _ hstep ih => exact loaderInv_step ih hstep

theorem nodup_keys_functional {Config : Type} :
    ∀ {l : List (Nat × Config)}, (l.map Prod.fst).Nodup →
      ∀ {p : Nat} {c c2 : Config}, (p, c) ∈ l → (p, c2) ∈ l → c = c2 := by
  intro l
  induction l with
  | nil => intro _ p c c2 h; exact absurd h (List.not_mem_nil _)
  | cons e rest ih =>
    intro hnd p c c2 h1 h2
    rw [List.map_cons, List.nodup_cons] at hnd
    have hkey : ∀ (q : Nat) (d : Config), (q, d) ∈ rest → q ∈ rest.map Prod.fst := by
      intro q d hm
      exact List.mem_map.mpr ⟨(q, d), hm, rfl⟩
    rcases List.mem_cons.mp h1 with h1e | h1r
    · rcases List.mem_cons.mp h2 with h2e | h2r
      · have h12 := h2e.trans h1e.symm
        exact (congrArg Prod.snd h12).symm
      · exfalso
        apply hnd.1
        rw [← h1e]
        exact hkey p c2 h2r
    · rcases List.mem_cons.mp h2 with h2e | h2r
      · exfalso
        apply hnd.1
        rw [← h2e]
        exact hkey p c h1r
      · exact ih hnd.2 h1r h2r

/-- Claim C9: in every reachable state, at most one discovery is in
flight; while a load is in flight its promise is the published
`configPromise` and the cache is still empty, and any caller that invokes
the loader in that window attaches exactly to that pending promise (it
never starts a second discovery); two callers that resolved from the same
promise obtained the identical configuration value. -/
theorem loadConfig_single_flight {Config : Type} (s : LoaderState Config)
    (h : LoaderReachable s) :
    s.inFlight.length ≤ 1 ∧
    (∀ q, q ∈ s.inFlight → s.configPromise = some q ∧ s.configCache = none) ∧
    (∀ t i q p, LoaderStep s t → q ∈ s.inFlight → s.tasks i = .ready →
      t.tasks i = .waiting p → p = q) ∧
    (∀ i j p c c2, s.tasks i = .resolvedFrom p c → s.tasks j = .resolvedFrom p c2 →
      c = c2) := by
  obtain ⟨inv1, inv2, inv3, inv4, inv5, inv6⟩ := loaderInv_reachable h
  refine ⟨inv1, ?_, ?_, ?_⟩
  · intro q hq
    exact ⟨(inv2 q hq).1, (inv2 q hq).2.1⟩
  · intro t i q p hstep hq hready hwait
    cases hstep with
    | callCached i2 c hr hc =>
      rcases inv2 q hq with ⟨_, hcache, _, _⟩
      rw [hcache] at hc
      cases hc
    | callJoin i2 p2 hr hc hprom =>
      dsimp only at hwait
      by_cases hii : i = i2
      · rw [if_pos hii] at hwait
        have hpp : p = p2 := by
          injection hwait with h4
          exact h4.symm
        have hq2 := (inv2 q hq).1
        rw [hprom] at hq2
        have hq3 : p2 = q := Option.some.inj hq2
        rw [hpp, hq3]
      · rw [if_neg hii] at hwait
        rw [hready] at hwait
        cases hwait
    | callStart i2 hr hc hprom =>
      have hq2 := (inv2 q hq).1
      rw [hprom] at hq2
      cases hq2
    | complete p2 c hp2 =>
      dsimp only at hwait
      rw [hready] at hwait
      cases hwait
    | resume i2 p2 c hw hres =>
      dsimp only at hwait
      by_cases hii : i = i2
      · rw [if_pos hii] at hwait
        cases hwait
      · rw [if_neg hii] at hwait
        rw [hready] at hwait
        cases hwait
  · intro i j p c c2 hi hj
    exact nodup_keys_functional inv4 (inv6 i p c hi) (inv6 j p c2 hj)

/-- A concrete reachable state with one load in flight: task 0 called the
loader on a cold start and published promise 0. -/
def loaderDemoState : LoaderState Nat :=
  { configCache := none, configPromise := some 0, inFlight := [0], resolutions := [],
    nextId := 1, tasks := fun j => if j = 0 then .waiting 0 else .ready }

/-- Witness for C9 at the demo state (reached by one `callStart` step). -/
theorem loadConfig_single_flight_witness :
    loaderDemoState.inFlight.length ≤ 1 ∧
    (∀ q, q ∈ loaderDemoState.inFlight →
      loaderDemoState.configPromise = some q ∧ loaderDemoState.configCache = none) ∧
    (∀ t i q p, LoaderStep loaderDemoState t → q ∈ loaderDemoState.inFlight →
      loaderDemoState.tasks i = .ready → t.tasks i = .waiting p → p = q) ∧
    (∀ i j p c c2, loaderDemoState.tasks i = .resolvedFrom p c →
      loaderDemoState.tasks j = .resolvedFrom p c2 → c = c2) := by
  have hstep : LoaderStep (initLoaderState Nat) loaderDemoState :=
    LoaderStep.callStart (initLoaderState Nat) 0 rfl rfl rfl
  exact loadConfig_single_flight loaderDemoState
    (LoaderReachable.step LoaderReachable.init hstep)
